import Mathlib

/-!
# Verification of the focusmate local state engine

Shallow embedding of the Response Cache, Favorite Store, Template Store and
breakdown parser of the focusmate-ai repository, together with proofs of the
specification claims about them.

Modelling conventions:
* A JavaScript `Map<string, T>` is an association list `List (String × T)`
  preserving insertion order, with no duplicate keys in reachable states.
* `Date.now()` is passed explicitly as a `now : Nat` argument (epoch ms).
* JavaScript strings are modelled through their character lists; character
  classes (`\s`, `toLowerCase`) are modelled on the ASCII range plus NBSP,
  which covers every character the claims exercise.
* `localStorage` is a durable cell which may fail with `QuotaExceededError`;
  the number of consecutive failing writes is modelled by a `failN` counter,
  and JSON serialization is abstracted as storing the entry list itself.
-/

namespace FocusMate

/-! ## JavaScript string primitives -/

/-- JS whitespace class `\s` (ASCII range plus no-break space): space, tab,
newline, carriage return, vertical tab, form feed, NBSP. -/
def jsWS (c : Char) : Bool :=
  c == ' ' || c == '\t' || c == '\n' || c == '\r' || c == '\x0b' || c == '\x0c' ||
    c == '\u00A0'

/-- JS `String.prototype.toLowerCase` (ASCII model, via `Char.toLower`). -/
def toLowerL (l : List Char) : List Char := l.map Char.toLower

/-- JS `String.prototype.trim`: strip leading and trailing whitespace. -/
def jsTrim (l : List Char) : List Char :=
  ((l.dropWhile jsWS).reverse.dropWhile jsWS).reverse

/-- Helper for `collapseWS`: the boolean records whether the previous
character was part of a whitespace run already replaced by a space. -/
def collapseWSAux : Bool → List Char → List Char
  | _, [] => []
  | prevWS, c :: rest =>
    if jsWS c then
      if prevWS then collapseWSAux true rest
      else ' ' :: collapseWSAux true rest
    else c :: collapseWSAux false rest

/-- JS `replace(/\s+/g, ' ')`: every maximal whitespace run becomes one space. -/
def collapseWS (l : List Char) : List Char := collapseWSAux false l

/-! ## JS `Map` model: association list preserving insertion order -/

/-- `Map.get`: first binding of the key, if any. -/
def mapGet {α : Type} : List (String × α) → String → Option α
  | [], _ => none
  | p :: rest, k => if p.1 == k then some p.2 else mapGet rest k

/-- `Map.set`: overwrite in place if the key is present, else append. -/
def mapSet {α : Type} : List (String × α) → String → α → List (String × α)
  | [], k, v => [(k, v)]
  | p :: rest, k, v => if p.1 == k then (k, v) :: rest else p :: mapSet rest k v

/-- `Map.delete`: remove the binding of the key, keeping insertion order. -/
def mapDelete {α : Type} : List (String × α) → String → List (String × α)
  | [], _ => []
  | p :: rest, k => if p.1 == k then rest else p :: mapDelete rest k

/-- The keys of a map, in insertion order. -/
def keysOf {α : Type} (m : List (String × α)) : List String := m.map Prod.fst

/-! ## ResponseCache (`ResponseCache.ts`) -/

/-- `CacheEntry` from `ResponseCache.ts`. -/
structure CacheEntry where
  task : String
  response : String
  timestamp : Nat
  inferenceTime : Nat
deriving DecidableEq, Repr

/-- `maxAge = 7 * 24 * 60 * 60 * 1000` (7 days in ms). -/
def maxAge : Nat := 7 * 24 * 60 * 60 * 1000

/-- `maxSize = 100` (max entries). -/
def maxSize : Nat := 100

/-- `normalizeTask`: `task.toLowerCase().trim().replace(/\s+/g, ' ')`. -/
def normalizeTask (task : String) : String :=
  String.mk (collapseWS (jsTrim (toLowerL task.data)))

/-- Comparator `(a, b) => a[1].timestamp - b[1].timestamp` of `prune`, as the
total preorder "may come no later than" used by the (stable) JS sort. -/
def entryLE (a b : String × CacheEntry) : Prop := a.2.timestamp ≤ b.2.timestamp

instance : DecidableRel entryLE := fun a b =>
  inferInstanceAs (Decidable (a.2.timestamp ≤ b.2.timestamp))

instance : IsTotal (String × CacheEntry) entryLE :=
  ⟨fun a b => Nat.le_total a.2.timestamp b.2.timestamp⟩

instance : IsTrans (String × CacheEntry) entryLE :=
  ⟨fun _ _ _ h h' => Nat.le_trans h h'⟩

/-- `ResponseCache.prune`: if over `maxSize`, sort the entries by timestamp
ascending (JS `sort` is stable; modelled by `insertionSort`) and delete the
oldest `size - maxSize` keys from the map. -/
def prune (c : List (String × CacheEntry)) : List (String × CacheEntry) :=
  if c.length ≤ maxSize then c
  else
    (((c.insertionSort entryLE).take (c.length - maxSize)).map Prod.fst).foldl mapDelete c

/-- `ResponseCache.get` (in-memory part): normalize the key, look it up; if
the entry is older than `maxAge`, delete it and report absent.  Returns the
result together with the possibly-updated map. -/
def cacheGet (c : List (String × CacheEntry)) (now : Nat) (task : String) :
    Option CacheEntry × List (String × CacheEntry) :=
  match mapGet c (normalizeTask task) with
  | none => (none, c)
  | some entry =>
    if now - entry.timestamp > maxAge then (none, mapDelete c (normalizeTask task))
    else (some entry, c)

/-- `ResponseCache.set` (in-memory part): normalize the key, insert an entry
stamped with the current time, then prune. -/
def cacheSet (c : List (String × CacheEntry)) (now : Nat) (task response : String)
    (inferenceTime : Nat) : List (String × CacheEntry) :=
  prune (mapSet c (normalizeTask task)
    { task := task, response := response, timestamp := now, inferenceTime := inferenceTime })

/-! ## Breakdown parser (`parseBreakdown` in `App.tsx`)

Each regular expression of the source is compiled by hand into a
deterministic matching function.  The lazy capture `([^()]+?)\s*\(` cannot
backtrack past a parenthesis, so each pattern has exactly one possible match,
which the functions below compute directly. -/

/-- `(` or `)`, the characters excluded by the capture class `[^()]`. -/
def isParen (c : Char) : Bool := c == '(' || c == ')'

/-- Case-insensitive literal match (pattern given in lowercase): returns the
remaining input on success. -/
def matchCI : List Char → List Char → Option (List Char)
  | [], l => some l
  | p :: ps, l =>
    match l with
    | [] => none
    | c :: cs => if c.toLower == p then matchCI ps cs else none

/-- `parseInt(digits, 10)` on a digit string. -/
def digitsToNat (ds : List Char) : Nat :=
  ds.foldl (fun n c => n * 10 + (c.toNat - 48)) 0

/-- Match `\((\d+)\s*min\)` (case-insensitive) at the head of the input;
returns the captured number and the remaining input. -/
def matchParenMin (l : List Char) : Option (Nat × List Char) :=
  match l with
  | [] => none
  | c :: r1 =>
    if c == '(' then
      if (r1.takeWhile Char.isDigit).isEmpty then none
      else
        match matchCI ("min").data ((r1.dropWhile Char.isDigit).dropWhile jsWS) with
        | some (c2 :: r3) => if c2 == ')' then some (digitsToNat (r1.takeWhile Char.isDigit), r3) else none
        | _ => none
    else none

/-- Match `\s*([^()]+?)\s*\((\d+)\s*min\)` at the head of the input (the tail
shared by the `step N:` and `N.` patterns).  The lazy capture cannot cross a
parenthesis, so the segment before the first parenthesis character decides
the match; `match[1].trim()` equals that segment trimmed. -/
def labeledTail (r : List Char) : Option (List Char × Nat) :=
  if (r.takeWhile (fun c => !(isParen c))).isEmpty then none
  else
    match matchParenMin (r.dropWhile (fun c => !(isParen c))) with
    | some (n, _) => some (jsTrim (r.takeWhile (fun c => !(isParen c))), n)
    | none => none

/-- Priority 1a: `/^step\s*\d+:\s*([^()]+?)\s*\((\d+)\s*min\)/i`. -/
def matchPat1 (l : List Char) : Option (List Char × Nat) :=
  match matchCI ("step").data l with
  | none => none
  | some r1 =>
    if ((r1.dropWhile jsWS).takeWhile Char.isDigit).isEmpty then none
    else
      match (r1.dropWhile jsWS).dropWhile Char.isDigit with
      | c :: r3 => if c == ':' then labeledTail r3 else none
      | [] => none

/-- Priority 1b: `/^\d+\.\s*([^()]+?)\s*\((\d+)\s*min\)/i`. -/
def matchPat2 (l : List Char) : Option (List Char × Nat) :=
  if (l.takeWhile Char.isDigit).isEmpty then none
  else
    match l.dropWhile Char.isDigit with
    | c :: r1 => if c == '.' then labeledTail r1 else none
    | [] => none

/-- The priority-1 block of `parseBreakdown`: pattern 1a, else pattern 1b. -/
def matchNumbered (l : List Char) : Option (List Char × Nat) :=
  match matchPat1 l with
  | some r => some r
  | none => matchPat2 l

/-- Priority 2: `/^-\s*\[([^\]]+)\]\s*\((\d+)\s*min\)/i` (bracket format).
The greedy capture `[^\]]+` is everything up to the first `]`. -/
def matchPat3 (l : List Char) : Option (List Char × Nat) :=
  match l with
  | '-' :: r1 =>
    match r1.dropWhile jsWS with
    | '[' :: r2 =>
      let cap := r2.takeWhile (fun c => c != ']')
      if cap.isEmpty then none
      else
        match r2.dropWhile (fun c => c != ']') with
        | ']' :: r3 =>
          match matchParenMin (r3.dropWhile jsWS) with
          | some (n, _) => some (jsTrim cap, n)
          | none => none
        | _ => none
    | _ => none
  | _ => none

/-- Priority 3: `/^-\s+([^()]+?)\s*\((\d+)\s*min\)/i` (bullet format).  After
`-`, the segment before the first parenthesis must start with whitespace (for
`\s+`) and have at least two characters (one for `\s+`, one for the capture). -/
def matchPat4 (l : List Char) : Option (List Char × Nat) :=
  match l with
  | '-' :: r1 =>
    match r1 with
    | c :: _ =>
      if jsWS c then
        let seg := r1.takeWhile (fun c => !(isParen c))
        if 2 ≤ seg.length then
          match matchParenMin (r1.dropWhile (fun c => !(isParen c))) with
          | some (n, _) => some (jsTrim seg, n)
          | none => none
        else none
      else none
    | [] => none
  | _ => none

/-- Leftmost position (in the fallback's `.*?` region) where
`\((\d+)\s*min\)` matches; `.` does not cross a line terminator, so the scan
stops at `\r` (a `\n` cannot occur inside a split line). -/
def findParenMin : List Char → Option Nat
  | [] => none
  | c :: cs =>
    match matchParenMin (c :: cs) with
    | some (n, _) => some n
    | none =>
      if c == '\r' || c == '\u2028' || c == '\u2029' then none
      else findParenMin cs

/-- One attempt of the replace pattern `\s*\(\d+\s*min\)` at the current
position: maximal whitespace run, then the paren-min group. -/
def stripWSParenMin (l : List Char) : Option (List Char) :=
  match matchParenMin (l.dropWhile jsWS) with
  | some (_, rest) => some rest
  | none => none

/-- JS `line.replace(/\s*\(\d+\s*min\)/i, '')`: delete the leftmost match,
or return the line unchanged when there is none. -/
def removeParenMin : List Char → List Char
  | [] => []
  | c :: cs =>
    match stripWSParenMin (c :: cs) with
    | some rest => rest
    | none => c :: removeParenMin cs

/-- Fallback: `/^[^\s].*?\((\d+)\s*min\)/i`, with the step text computed as
`line.replace(/\s*\(\d+\s*min\)/i, '').trim()`. -/
def matchFallback (l : List Char) : Option (List Char × Nat) :=
  match l with
  | [] => none
  | c :: cs =>
    if jsWS c then none
    else
      match findParenMin cs with
      | none => none
      | some n => some (jsTrim (removeParenMin l), n)

/-- JS `String.prototype.includes`: does the needle occur as a contiguous
substring of the haystack? -/
def containsSub (needle : List Char) : List Char → Bool
  | [] => needle.isEmpty
  | c :: cs => needle.isPrefixOf (c :: cs) || containsSub needle cs

/-- `stepText.toLowerCase().includes('clear action')`. -/
def checkCA (s : List Char) : Bool :=
  containsSub "clear action".data (toLowerL s)

/-- One iteration of the `lines.forEach` body of `parseBreakdown`: the
patterns are tried in priority order, the first match wins, and a match whose
step text contains the placeholder (or fails the fallback's length guard)
contributes nothing. -/
def lineParse (l : List Char) : Option (List Char × Nat) :=
  match matchNumbered l with
  | some (s, n) => if checkCA s then none else some (s, n)
  | none =>
    match matchPat3 l with
    | some (s, n) => if checkCA s then none else some (s, n)
    | none =>
      match matchPat4 l with
      | some (s, n) => if checkCA s then none else some (s, n)
      | none =>
        match matchFallback l with
        | some (s, n) =>
          if !s.isEmpty && 3 < s.length && !checkCA s then some (s, n) else none
        | none => none

/-- JS `response.split('\n')` on the character list. -/
def splitOnNl : List Char → List (List Char)
  | [] => [[]]
  | c :: cs =>
    if c == '\n' then [] :: splitOnNl cs
    else
      match splitOnNl cs with
      | h :: t => (c :: h) :: t
      | [] => [[c]]

/-- `response.split('\n').filter(line => line.trim())`: the non-blank lines. -/
def nonBlankLines (response : String) : List (List Char) :=
  (splitOnNl response.data).filter (fun l => !(jsTrim l).isEmpty)

/-- The `forEach` accumulation: push the step text and the minute count of
every matching line, in order. -/
def parseLines : List (List Char) → List String × List Nat
  | [] => ([], [])
  | l :: rest =>
    match lineParse l with
    | some (s, n) =>
      let r := parseLines rest
      (String.mk s :: r.1, n :: r.2)
    | none => parseLines rest

/-- `parseBreakdown(response)`: `(steps, estimatedTimes)`. -/
def parseBreakdown (response : String) : List String × List Nat :=
  parseLines (nonBlankLines response)

/-! ## ResponseCache with the durable medium (`saveToStorage`) -/

/-- State of the `ResponseCache` singleton together with its `localStorage`
slot.  `failN` is the number of upcoming writes that throw
`QuotaExceededError`. -/
structure RCState where
  cache : List (String × CacheEntry)
  storage : Option (List (String × CacheEntry))
  failN : Nat
deriving DecidableEq, Repr

/-- `ResponseCache.saveToStorage`: write the entries; on `QuotaExceededError`
clear the whole in-memory cache and retry (the retries recurse until a write
succeeds, so the recursion is on the number of failing writes). -/
def rcSaveToStorage : List (String × CacheEntry) → Option (List (String × CacheEntry)) →
    Nat → RCState
  | cache, _storage, 0 => ⟨cache, some cache, 0⟩
  | _cache, storage, n + 1 => rcSaveToStorage [] storage n

/-- `ResponseCache.set` including persistence: insert, prune, save. -/
def rcSet (st : RCState) (now : Nat) (task response : String) (inferenceTime : Nat) :
    RCState :=
  rcSaveToStorage (cacheSet st.cache now task response inferenceTime) st.storage st.failN

/-! ## FavoriteManager (`FavoriteManager.ts`) -/

/-- `FavoriteBreakdown` from `FavoriteManager.ts`. -/
structure FavoriteBreakdown where
  id : String
  task : String
  breakdown : String
  response : String
  savedAt : Nat
  lastUsed : Nat
  usageCount : Nat
  totalEstimatedTime : Nat
deriving DecidableEq, Repr

/-- Comparator `(a, b) => a[1].lastUsed - b[1].lastUsed` of `pruneOldest`
(ascending `lastUsed`), as a total preorder for the stable JS sort. -/
def favAsc (a b : String × FavoriteBreakdown) : Prop := a.2.lastUsed ≤ b.2.lastUsed

instance : DecidableRel favAsc := fun a b =>
  inferInstanceAs (Decidable (a.2.lastUsed ≤ b.2.lastUsed))

instance : IsTotal (String × FavoriteBreakdown) favAsc :=
  ⟨fun a b => Nat.le_total a.2.lastUsed b.2.lastUsed⟩

instance : IsTrans (String × FavoriteBreakdown) favAsc :=
  ⟨fun _ _ _ h h' => Nat.le_trans h h'⟩

/-- Comparator `(a, b) => b.lastUsed - a.lastUsed` of `getAll` (descending
`lastUsed`), as a total preorder for the stable JS sort. -/
def favDesc (a b : FavoriteBreakdown) : Prop := b.lastUsed ≤ a.lastUsed

instance : DecidableRel favDesc := fun a b =>
  inferInstanceAs (Decidable (b.lastUsed ≤ a.lastUsed))

instance : IsTotal FavoriteBreakdown favDesc :=
  ⟨fun a b => Nat.le_total b.lastUsed a.lastUsed⟩

instance : IsTrans FavoriteBreakdown favDesc :=
  ⟨fun _ _ _ h h' => Nat.le_trans h' h⟩

/-- `FavoriteManager.getAll`: the values sorted by `lastUsed` descending. -/
def favGetAll (m : List (String × FavoriteBreakdown)) : List FavoriteBreakdown :=
  (m.map Prod.snd).insertionSort favDesc

/-- `FavoriteManager.pruneOldest(count)`: sort the entries by `lastUsed`
ascending and delete the first `count` ids. -/
def pruneOldest (count : Nat) (favs : List (String × FavoriteBreakdown)) :
    List (String × FavoriteBreakdown) :=
  (((favs.insertionSort favAsc).take count).map Prod.fst).foldl mapDelete favs

/-- State of the `FavoriteManager` singleton together with its `localStorage`
slot; `failN` as in `RCState`. -/
structure FMState where
  favorites : List (String × FavoriteBreakdown)
  storage : Option (List (String × FavoriteBreakdown))
  failN : Nat
deriving DecidableEq, Repr

/-- `FavoriteManager.saveToStorage`: write the entries; on
`QuotaExceededError` prune the 5 least-recently-used favorites and retry. -/
def favSaveToStorage : List (String × FavoriteBreakdown) →
    Option (List (String × FavoriteBreakdown)) → Nat → FMState
  | favs, _storage, 0 => ⟨favs, some favs, 0⟩
  | favs, storage, n + 1 => favSaveToStorage (pruneOldest 5 favs) storage n

/-- The `FavoriteBreakdown` record built by `FavoriteManager.save` (the
generated id and `Date.now()` are passed explicitly). -/
def mkFavorite (id task response : String) (now estimatedTime : Nat) :
    FavoriteBreakdown :=
  { id := id, task := task, breakdown := response, response := response,
    savedAt := now, lastUsed := now, usageCount := 1,
    totalEstimatedTime := estimatedTime }

/-- `FavoriteManager.save`: insert the new favorite and persist. -/
def favSave (st : FMState) (now : Nat) (id task response : String)
    (estimatedTime : Nat) : FavoriteBreakdown × FMState :=
  let fav := mkFavorite id task response now estimatedTime
  (fav, favSaveToStorage (mapSet st.favorites id fav) st.storage st.failN)

/-! ## TemplateManager (`TemplateManager.ts`) -/

/-- One step of a `CustomTemplate`. -/
structure TemplateStep where
  id : String
  description : String
  estimatedMinutes : Nat
  optional : Bool
deriving DecidableEq, Repr

/-- `CustomTemplate`, restricted to the fields read or written by
`updateStep` / `addStep` / `removeStep` (the remaining fields — category,
difficulty, tips, timestamps, flags — are carried through unchanged by those
operations and are irrelevant to the claims). -/
structure CustomTemplate where
  id : String
  title : String
  description : String
  estimatedTotalTime : Nat
  steps : List TemplateStep
deriving DecidableEq, Repr

/-- The `updates` argument of `updateStep` (each field optional). -/
structure StepUpdates where
  description : Option String
  estimatedMinutes : Option Nat
  optional : Option Bool
deriving DecidableEq, Repr

/-- `{...steps[stepIndex], ...updates}`: fields present in `updates` replace
the old ones. -/
def applyUpdates (s : TemplateStep) (u : StepUpdates) : TemplateStep :=
  { s with
    description := u.description.getD s.description,
    estimatedMinutes := u.estimatedMinutes.getD s.estimatedMinutes,
    optional := u.optional.getD s.optional }

/-- `template.steps.reduce((sum, s) => sum + s.estimatedMinutes, 0)`. -/
def sumMinutes (steps : List TemplateStep) : Nat :=
  steps.foldl (fun sum s => sum + s.estimatedMinutes) 0

/-- `template.steps[stepIndex] = {...steps[stepIndex], ...updates}`. -/
def setStepAt : List TemplateStep → Nat → StepUpdates → List TemplateStep
  | [], _, _ => []
  | s :: rest, 0, u => applyUpdates s u :: rest
  | s :: rest, i + 1, u => s :: setStepAt rest i u

/-- `TemplateManager.updateStep`: merge the updates into the addressed step
and re-calculate `estimatedTotalTime`; `false` when the template or step is
missing. -/
def updateStep (m : List (String × CustomTemplate)) (tid sid : String)
    (u : StepUpdates) : Bool × List (String × CustomTemplate) :=
  match mapGet m tid with
  | none => (false, m)
  | some t =>
    match t.steps.findIdx? (fun s => s.id == sid) with
    | none => (false, m)
    | some i =>
      let steps := setStepAt t.steps i u
      let t := { t with steps := steps, estimatedTotalTime := sumMinutes steps }
      (true, mapSet m tid t)

/-- `TemplateManager.addStep`: append a step (generated id from the step
count and `Date.now()`) and re-calculate `estimatedTotalTime`; `none` models
the thrown `Error('Template not found')`. -/
def addStep (m : List (String × CustomTemplate)) (tid : String)
    (description : String) (estimatedMinutes : Nat) (optional : Option Bool)
    (now : Nat) : Option (String × List (String × CustomTemplate)) :=
  match mapGet m tid with
  | none => none
  | some t =>
    let stepId := "step_" ++ toString t.steps.length ++ "_" ++ toString now
    let steps := t.steps ++
      [{ id := stepId, description := description,
         estimatedMinutes := estimatedMinutes, optional := optional.getD false }]
    let t := { t with steps := steps, estimatedTotalTime := sumMinutes steps }
    some (stepId, mapSet m tid t)

/-- `TemplateManager.removeStep`: splice out the addressed step and
re-calculate `estimatedTotalTime`; `false` when the template or step is
missing. -/
def removeStep (m : List (String × CustomTemplate)) (tid sid : String) :
    Bool × List (String × CustomTemplate) :=
  match mapGet m tid with
  | none => (false, m)
  | some t =>
    match t.steps.findIdx? (fun s => s.id == sid) with
    | none => (false, m)
    | some i =>
      let steps := t.steps.eraseIdx i
      let t := { t with steps := steps, estimatedTotalTime := sumMinutes steps }
      (true, mapSet m tid t)

/-! ## Batched cache insertion (for the capacity-eviction claim) -/

/-- One `set` call: task, response, the `Date.now()` at the call, and the
inference time. -/
structure Ins where
  task : String
  response : String
  now : Nat
  inferenceTime : Nat
deriving DecidableEq, Repr

/-- The map binding produced by a single `set` on a fresh key. -/
def entryOf (i : Ins) : String × CacheEntry :=
  (normalizeTask i.task, ⟨i.task, i.response, i.now, i.inferenceTime⟩)

/-- Perform a sequence of `set` calls, in order. -/
def cacheSetMany (c : List (String × CacheEntry)) (l : List Ins) :
    List (String × CacheEntry) :=
  l.foldl (fun c i => cacheSet c i.now i.task i.response i.inferenceTime) c

/-- Concrete witness inputs for the capacity-eviction claim: `maxSize + 5`
tasks with pairwise distinct normalized keys and strictly increasing
timestamps. -/
def c2Inputs : List Ins :=
  (List.range (maxSize + 5)).map (fun i => ⟨String.mk (List.replicate i 'a'), "r", i, 0⟩)

/-- Five stored favorites, all older than the next save. -/
def c6Favs : List (String × FavoriteBreakdown) :=
  [(("f1"), mkFavorite ("f1") ("a") ("r") 1 0),
   (("f2"), mkFavorite ("f2") ("b") ("r") 2 0),
   (("f3"), mkFavorite ("f3") ("c") ("r") 3 0),
   (("f4"), mkFavorite ("f4") ("d") ("r") 4 0),
   (("f5"), mkFavorite ("f5") ("e") ("r") 5 0)]

/-- Concrete template for exercising the step operations. -/
def c9Tmpl : CustomTemplate :=
  { id := "t1", title := "T", description := "D", estimatedTotalTime := 0,
    steps := [{ id := "s1", description := "d", estimatedMinutes := 5, optional := false }] }

/-- The template `c9Tmpl` after `updateStep` sets the step estimate to 7. -/
def c9After : CustomTemplate :=
  { id := "t1", title := "T", description := "D", estimatedTotalTime := 7,
    steps := [{ id := "s1", description := "d", estimatedMinutes := 7, optional := false }] }

/-! ## Lemmas about the `Map` model -/

theorem mapGet_mapSet_self {α : Type} (m : List (String × α)) (k : String) (v : α) :
    mapGet (mapSet m k v) k = some v := by
  induction m with
  | nil => simp [mapSet, mapGet]
  | cons p rest ih =>
    by_cases h : p.1 == k
    · simp [mapSet, mapGet, h]
    · simp only [mapSet, h, if_false, Bool.false_eq_true, ite_false]
      simp only [mapGet, h, Bool.false_eq_true, if_false, ih]

theorem length_mapSet_le {α : Type} (m : List (String × α)) (k : String) (v : α) :
    (mapSet m k v).length ≤ m.length + 1 := by
  induction m with
  | nil => simp [mapSet]
  | cons p rest ih =>
    by_cases h : p.1 == k <;> simp [mapSet, h] <;> omega

theorem mem_keys_of_mapGet {α : Type} {m : List (String × α)} {k : String} {v : α}
    (h : mapGet m k = some v) : k ∈ keysOf m := by
  induction m with
  | nil => simp [mapGet] at h
  | cons p rest ih =>
    by_cases hp : p.1 == k
    · simp [keysOf]
      exact Or.inl (eq_of_beq hp).symm
    · simp only [mapGet, hp, Bool.false_eq_true, if_false] at h
      simpa [keysOf] using Or.inr (by simpa [keysOf] using ih h)

theorem mapGet_eq_none_of_not_mem {α : Type} {m : List (String × α)} {k : String}
    (h : k ∉ keysOf m) : mapGet m k = none := by
  cases hg : mapGet m k with
  | none => rfl
  | some v => exact absurd (mem_keys_of_mapGet hg) h

theorem mapSet_eq_append {α : Type} (m : List (String × α)) (k : String) (v : α)
    (h : k ∉ keysOf m) : mapSet m k v = m ++ [(k, v)] := by
  induction m with
  | nil => simp [mapSet]
  | cons p rest ih =>
    simp only [keysOf, List.map_cons, List.mem_cons, not_or] at h
    have hp : (p.1 == k) = false := by
      cases hb : p.1 == k
      · rfl
      · exact absurd (eq_of_beq hb).symm h.1
    simp only [mapSet, hp, Bool.false_eq_true, if_false, List.cons_append,
      List.cons.injEq, true_and]
    exact ih (by simpa [keysOf] using h.2)

theorem keysOf_mapSet {α : Type} (m : List (String × α)) (k : String) (v : α) :
    keysOf (mapSet m k v) = keysOf m ∨
      keysOf (mapSet m k v) = keysOf m ++ [k] := by
  induction m with
  | nil => right; simp [mapSet, keysOf]
  | cons p rest ih =>
    by_cases h : p.1 == k
    · left
      simp [mapSet, keysOf, h, eq_of_beq h]
    · rcases ih with ih | ih
      · left
        simp only [mapSet, h, Bool.false_eq_true, if_false]
        simp [keysOf] at ih ⊢
        exact ih
      · right
        simp only [mapSet, h, Bool.false_eq_true, if_false]
        simp [keysOf] at ih ⊢
        exact ih

theorem nodupKeys_mapSet {α : Type} (m : List (String × α)) (k : String) (v : α)
    (h : (keysOf m).Nodup) : (keysOf (mapSet m k v)).Nodup := by
  by_cases hk : k ∈ keysOf m
  · induction m with
    | nil => simp [mapSet, keysOf]
    | cons p rest ih =>
      by_cases hp : p.1 == k
      · simpa [mapSet, keysOf, hp, eq_of_beq hp] using h
      · have hk' : k ∈ keysOf rest := by
          simp only [keysOf, List.map_cons, List.mem_cons] at hk
          rcases hk with hk | hk
          · exact absurd hk (by intro he; exact absurd (beq_of_eq he.symm) (by simp [hp]))
          · exact hk
        simp only [keysOf, List.map_cons, List.nodup_cons] at h
        have := ih (h.2) hk'
        simp only [mapSet, hp, Bool.false_eq_true, if_false, keysOf, List.map_cons,
          List.nodup_cons]
        constructor
        · intro hmem
          rcases keysOf_mapSet rest k v with he | he
          · rw [keysOf] at he
            rw [he] at hmem
            exact h.1 hmem
          · rw [keysOf] at he
            rw [he] at hmem
            rcases List.mem_append.1 hmem with hmem | hmem
            · exact h.1 hmem
            · simp at hmem
              exact absurd (beq_of_eq hmem) (by simp [hp])
        · exact this
  · rw [mapSet_eq_append m k v hk]
    have : keysOf (m ++ [(k, v)]) = keysOf m ++ [k] := by simp [keysOf]
    rw [this]
    simp only [List.nodup_append, List.nodup_cons, List.not_mem_nil, not_false_iff,
      List.nodup_nil, and_true, true_and]
    constructor
    · exact h
    · intro a ha
      simp only [List.mem_singleton]
      intro he
      exact hk (he ▸ ha)

theorem mapDelete_sublist {α : Type} (m : List (String × α)) (k : String) :
    List.Sublist (mapDelete m k) m := by
  induction m with
  | nil => simp [mapDelete]
  | cons p rest ih =>
    by_cases h : p.1 == k
    · simpa [mapDelete, h] using (List.sublist_cons_self p rest)
    · simp only [mapDelete, h, Bool.false_eq_true, if_false]
      exact List.Sublist.cons₂ p ih

theorem mapGet_mapDelete_self {α : Type} (m : List (String × α)) (k : String)
    (h : (keysOf m).Nodup) : mapGet (mapDelete m k) k = none := by
  induction m with
  | nil => simp [mapDelete, mapGet]
  | cons p rest ih =>
    simp only [keysOf, List.map_cons, List.nodup_cons] at h
    by_cases hp : p.1 == k
    · simp only [mapDelete, hp, if_true]
      apply mapGet_eq_none_of_not_mem
      intro hmem
      exact h.1 ((eq_of_beq hp) ▸ hmem)
    · simp only [mapDelete, hp, Bool.false_eq_true, if_false, mapGet]
      exact ih h.2

theorem mapGet_of_sublist {α : Type} {m' m : List (String × α)}
    (hs : List.Sublist m' m) {k : String} {v : α} :
    (keysOf m).Nodup → mapGet m' k = some v → mapGet m k = some v := by
  induction hs with
  | slnil => exact fun _ h => h
  | cons p hs ih =>
    rename_i l₁ l₂
    intro hn h
    simp only [keysOf, List.map_cons, List.nodup_cons] at hn
    by_cases hp : p.1 == k
    · exfalso
      have hmem : k ∈ keysOf l₁ := mem_keys_of_mapGet h
      have hmem' : k ∈ keysOf l₂ := (List.Sublist.map Prod.fst hs).mem hmem
      exact hn.1 ((eq_of_beq hp) ▸ hmem')
    · simp only [mapGet, hp, Bool.false_eq_true, if_false]
      exact ih hn.2 h
  | cons₂ p hs ih =>
    rename_i l₁ l₂
    intro hn h
    simp only [keysOf, List.map_cons, List.nodup_cons] at hn
    by_cases hp : p.1 == k
    · simp only [mapGet, hp, if_true] at h ⊢
      exact h
    · simp only [mapGet, hp, Bool.false_eq_true, if_false] at h ⊢
      exact ih hn.2 h

theorem mapGet_mapDelete_ne {α : Type} (m : List (String × α)) {k k' : String}
    (h : ¬(k' == k)) : mapGet (mapDelete m k') k = mapGet m k := by
  induction m with
  | nil => simp [mapDelete]
  | cons p rest ih =>
    by_cases hp : p.1 == k'
    · have : ¬(p.1 == k) := by
        intro hb
        exact h (by rw [← eq_of_beq hp] at *; exact hb)
      simp [mapDelete, mapGet, hp, this]
    · by_cases hq : p.1 == k
      · simp [mapDelete, mapGet, hp, hq]
      · simp [mapDelete, mapGet, hp, hq, ih]

theorem mapGet_foldl_mapDelete {α : Type} (ks : List String)
    (m : List (String × α)) {k : String} (h : ∀ k' ∈ ks, ¬(k' == k)) :
    mapGet (ks.foldl mapDelete m) k = mapGet m k := by
  induction ks generalizing m with
  | nil => rfl
  | cons k' ks ih =>
    simp only [List.foldl_cons]
    rw [ih _ (fun x hx => h x (List.mem_cons_of_mem _ hx)),
      mapGet_mapDelete_ne m (h k' (List.mem_cons_self _ _))]

theorem foldl_mapDelete_sublist {α : Type} (ks : List String)
    (m : List (String × α)) : List.Sublist (ks.foldl mapDelete m) m := by
  induction ks generalizing m with
  | nil => exact List.Sublist.refl m
  | cons k' ks ih =>
    exact List.Sublist.trans (ih (mapDelete m k')) (mapDelete_sublist m k')

theorem nodupKeys_of_sublist {α : Type} {m' m : List (String × α)} (hs : List.Sublist m' m)
    (hn : (keysOf m).Nodup) : (keysOf m').Nodup :=
  List.Nodup.sublist (List.Sublist.map Prod.fst hs) hn

/-! ## Lemmas about `prune` -/

theorem prune_sublist (c : List (String × CacheEntry)) : List.Sublist (prune c) c := by
  unfold prune
  by_cases h : c.length ≤ maxSize
  · simp [h]
  · simp only [h, if_false]
    exact foldl_mapDelete_sublist _ c

theorem prune_of_le (c : List (String × CacheEntry)) (h : c.length ≤ maxSize) :
    prune c = c := by
  unfold prune
  simp [h]

/-! ## Behaviour of `cacheGet` -/

theorem cacheGet_found {c : List (String × CacheEntry)} {now : Nat} {task : String}
    {e : CacheEntry} (h : mapGet c (normalizeTask task) = some e)
    (hfresh : now - e.timestamp ≤ maxAge) : cacheGet c now task = (some e, c) := by
  unfold cacheGet
  split
  · rename_i heq
    rw [h] at heq
    exact absurd heq (by simp)
  · rename_i entry heq
    rw [h] at heq
    cases heq
    rw [if_neg (by omega)]

theorem cacheGet_expired {c : List (String × CacheEntry)} {now : Nat} {task : String}
    {e : CacheEntry} (h : mapGet c (normalizeTask task) = some e)
    (hold : maxAge < now - e.timestamp) :
    cacheGet c now task = (none, mapDelete c (normalizeTask task)) := by
  unfold cacheGet
  split
  · rename_i heq
    rw [h] at heq
    exact absurd heq (by simp)
  · rename_i entry heq
    rw [h] at heq
    cases heq
    rw [if_pos hold]

/-! ## C1: cache TTL round trip -/

/-- C1.  For every task `k`, response `r` and time `now`: `set` then `get`
with the same clock returns an entry whose response is `r`; and `set`
followed by a clock advance of strictly more than `maxAge` makes `get`
return absent and delete the binding of the normalized key.  The cache is
assumed to hold fewer than `maxSize` entries (so the fresh insertion cannot
itself be evicted) with duplicate-free keys (the `Map` invariant). -/
theorem claim1 (c : List (String × CacheEntry)) (k r : String) (t now d : Nat)
    (hlen : c.length < maxSize) (hnd : (keysOf c).Nodup) :
    (cacheGet (cacheSet c now k r t) now k).1 =
      some { task := k, response := r, timestamp := now, inferenceTime := t } ∧
    (maxAge < d →
      (cacheGet (cacheSet c now k r t) (now + d) k).1 = none ∧
      mapGet (cacheGet (cacheSet c now k r t) (now + d) k).2 (normalizeTask k) = none) := by
  set nk := normalizeTask k with hnk
  set e : CacheEntry := { task := k, response := r, timestamp := now, inferenceTime := t }
    with he
  have hset : cacheSet c now k r t = mapSet c nk e := by
    unfold cacheSet
    exact prune_of_le _ (le_trans (length_mapSet_le c nk e) (by omega))
  have hget : mapGet (mapSet c nk e) nk = some e := mapGet_mapSet_self c nk e
  constructor
  · rw [hset, cacheGet_found hget (by simp only [he]; omega)]
  · intro hd
    have hage : maxAge < now + d - e.timestamp := by
      simp only [he]
      omega
    rw [hset, cacheGet_expired hget hage]
    refine ⟨rfl, ?_⟩
    exact mapGet_mapDelete_self _ nk (nodupKeys_mapSet c nk e hnd)

/-- Witness for C1 at a concrete input. -/
theorem claim1_witness :
    ([] : List (String × CacheEntry)).length < maxSize ∧
    (keysOf ([] : List (String × CacheEntry))).Nodup ∧
    maxAge < maxAge + 1 ∧
    ((cacheGet (cacheSet [] 10 ("Do taxes") ("resp") 3) 10 ("Do taxes")).1 =
      some { task := "Do taxes", response := "resp", timestamp := 10, inferenceTime := 3 } ∧
    ((cacheGet (cacheSet [] 10 ("Do taxes") ("resp") 3) (10 + (maxAge + 1)) ("Do taxes")).1 = none ∧
      mapGet (cacheGet (cacheSet [] 10 ("Do taxes") ("resp") 3)
        (10 + (maxAge + 1)) ("Do taxes")).2 (normalizeTask ("Do taxes")) = none)) := by
  refine ⟨by decide, by decide, by omega, ?_⟩
  have h := claim1 [] ("Do taxes") ("resp") 3 10 (maxAge + 1) (by decide) (by decide)
  exact ⟨h.1, h.2 (by omega)⟩

/-! ## C8: key normalization -/

/-- C8.  Two task strings that agree after lower-casing, trimming and
whitespace-collapsing address the same cache slot: `set(k1, r, t)` followed
by `get(k2)` at the same clock returns the entry stored under `k1`.  The
cache is assumed to hold fewer than `maxSize` entries, so the fresh
insertion is not evicted by `prune`. -/
theorem claim8 (c : List (String × CacheEntry)) (k1 k2 r : String) (t now : Nat)
    (hnorm : normalizeTask k1 = normalizeTask k2) (hlen : c.length < maxSize) :
    (cacheGet (cacheSet c now k1 r t) now k2).1 =
      some { task := k1, response := r, timestamp := now, inferenceTime := t } := by
  set e : CacheEntry := { task := k1, response := r, timestamp := now, inferenceTime := t }
    with he
  have hset : cacheSet c now k1 r t = mapSet c (normalizeTask k1) e := by
    unfold cacheSet
    exact prune_of_le _ (le_trans (length_mapSet_le c _ e) (by omega))
  have hget : mapGet (mapSet c (normalizeTask k1) e) (normalizeTask k2) = some e := by
    rw [← hnorm]
    exact mapGet_mapSet_self c _ e
  rw [hset, cacheGet_found hget (by simp only [he]; omega)]

/-- Witness for C8: `"Do  Taxes "` and `"do taxes"` normalize identically. -/
theorem claim8_witness :
    normalizeTask ("Do  Taxes ") = normalizeTask ("do taxes") ∧
    ([] : List (String × CacheEntry)).length < maxSize ∧
    (cacheGet (cacheSet [] 7 ("Do  Taxes ") ("resp") 2) 7 ("do taxes")).1 =
      some { task := "Do  Taxes ", response := "resp", timestamp := 7, inferenceTime := 2 } :=
  ⟨by decide, by decide, claim8 [] ("Do  Taxes ") ("do taxes") ("resp") 2 7 (by decide) (by decide)⟩

/-! ## C2: capacity eviction -/

theorem keysOf_map_entryOf (l : List Ins) :
    keysOf (l.map entryOf) = l.map (fun i => normalizeTask i.task) := by
  simp [keysOf, entryOf, List.map_map]

/-- Evaluation of a batch of `set` calls on fresh keys with strictly
increasing timestamps: the cache retains exactly the most recent `maxSize`
insertions, in insertion order. -/
theorem cacheSetMany_drop (l : List Ins)
    (hk : (l.map (fun i => normalizeTask i.task)).Nodup)
    (ht : (l.map Ins.now).Pairwise (· < ·)) :
    cacheSetMany [] l = (l.drop (l.length - maxSize)).map entryOf := by
  induction l using List.reverseRecOn with
  | nil => rfl
  | append_singleton l a ih =>
    rw [List.map_append, List.nodup_append] at hk
    rw [List.map_append, List.pairwise_append] at ht
    have hprev : cacheSetMany [] l = (l.drop (l.length - maxSize)).map entryOf :=
      ih hk.1 ht.1
    have hstep : cacheSetMany [] (l ++ [a]) =
        cacheSet ((l.drop (l.length - maxSize)).map entryOf)
          a.now a.task a.response a.inferenceTime := by
      unfold cacheSetMany
      rw [List.foldl_append]
      unfold cacheSetMany at hprev
      rw [hprev]
      rfl
    have hnotmem : normalizeTask a.task ∉ keysOf ((l.drop (l.length - maxSize)).map entryOf) := by
      rw [keysOf_map_entryOf]
      intro hmem
      have : normalizeTask a.task ∈ l.map (fun i => normalizeTask i.task) := by
        have hsub : List.Sublist (l.drop (l.length - maxSize)) l := List.drop_sublist _ l
        have := (hsub.map (fun i => normalizeTask i.task)).mem hmem
        exact this
      exact hk.2.2 this (by simp)
    have happend :
        mapSet ((l.drop (l.length - maxSize)).map entryOf) (normalizeTask a.task)
          { task := a.task, response := a.response, timestamp := a.now,
            inferenceTime := a.inferenceTime } =
        (l.drop (l.length - maxSize)).map entryOf ++ [entryOf a] :=
      mapSet_eq_append _ _ _ hnotmem
    have hlenprev : ((l.drop (l.length - maxSize)).map entryOf).length =
        l.length - (l.length - maxSize) := by
      rw [List.length_map, List.length_drop]
    rw [hstep]
    unfold cacheSet
    rw [happend]
    by_cases hn : l.length < maxSize
    · have hle : ((l.drop (l.length - maxSize)).map entryOf ++ [entryOf a]).length ≤ maxSize := by
        rw [List.length_append, hlenprev]
        simp only [List.length_cons, List.length_nil]
        omega
      rw [prune_of_le _ hle]
      have h0 : l.length - maxSize = 0 := by omega
      have h0' : (l ++ [a]).length - maxSize = 0 := by
        rw [List.length_append]
        simp only [List.length_cons, List.length_nil]
        omega
      rw [h0, h0']
      simp [List.map_append, entryOf]
    · -- the cache already holds `maxSize` entries: the oldest one is evicted
      have hlen100 : ((l.drop (l.length - maxSize)).map entryOf).length = maxSize := by
        rw [hlenprev]
        omega
      -- destructure the current cache contents
      have hex : ∃ b bs, l.drop (l.length - maxSize) = b :: bs := by
        cases hd : l.drop (l.length - maxSize) with
        | nil =>
          rw [hd] at hlen100
          simp [maxSize] at hlen100
        | cons b bs => exact ⟨b, bs, rfl⟩
      obtain ⟨b, bs, hL⟩ := hex
      have hsortedsub :
          List.Sublist (l.drop (l.length - maxSize) ++ [a]) (l ++ [a]) :=
        List.Sublist.append (List.drop_sublist _ l) (List.Sublist.refl [a])
      have hpw : ((l ++ [a]).map Ins.now).Pairwise (· < ·) := by
        rw [List.map_append, List.pairwise_append]
        exact ht
      have hpw' : (l.drop (l.length - maxSize) ++ [a]).Pairwise
          (fun i j => i.now < j.now) := by
        have := (List.pairwise_map).1 hpw
        exact this.sublist hsortedsub
      have hsorted : List.Sorted entryLE
          ((l.drop (l.length - maxSize) ++ [a]).map entryOf) := by
        rw [List.Sorted, List.pairwise_map]
        exact hpw'.imp (fun h => Nat.le_of_lt h)
      have hsorted' : List.Sorted entryLE
          ((l.drop (l.length - maxSize)).map entryOf ++ [entryOf a]) := by
        have hmaps : (l.drop (l.length - maxSize) ++ [a]).map entryOf =
            (l.drop (l.length - maxSize)).map entryOf ++ [entryOf a] := by
          rw [List.map_append]
          rfl
        rw [← hmaps]
        exact hsorted
      have hsort_eq :
          ((l.drop (l.length - maxSize)).map entryOf ++ [entryOf a]).insertionSort entryLE =
          (l.drop (l.length - maxSize)).map entryOf ++ [entryOf a] :=
        List.Sorted.insertionSort_eq hsorted'
      have hlen101 :
          ((l.drop (l.length - maxSize)).map entryOf ++ [entryOf a]).length = maxSize + 1 := by
        rw [List.length_append, hlen100]
        simp
      have hgt : ¬((l.drop (l.length - maxSize)).map entryOf ++ [entryOf a]).length ≤ maxSize := by
        rw [hlen101]
        omega
      unfold prune
      rw [hsort_eq, if_neg hgt, hlen101]
      have htake1 : maxSize + 1 - maxSize = 1 := by omega
      rw [htake1]
      have htake : ((l.drop (l.length - maxSize)).map entryOf ++ [entryOf a]).take 1 =
          [entryOf b] := by
        rw [hL]
        rfl
      rw [htake]
      simp only [List.map_cons, List.map_nil, List.foldl_cons, List.foldl_nil]
      -- deleting the head key
      have hdel : mapDelete
          ((l.drop (l.length - maxSize)).map entryOf ++ [entryOf a]) (entryOf b).1 =
          bs.map entryOf ++ [entryOf a] := by
        rw [hL]
        simp [mapDelete]
      rw [hdel]
      -- identify the result with the dropped suffix of `l ++ [a]`
      have hbs : l.drop (l.length - maxSize + 1) = bs := by
        rw [← List.tail_drop, hL]
        rfl
      have hm : maxSize = 100 := rfl
      have hidx : (l ++ [a]).length - maxSize = l.length - maxSize + 1 := by
        rw [List.length_append]
        simp only [List.length_cons, List.length_nil]
        omega
      have hlena : l.length - maxSize + 1 ≤ l.length := by omega
      rw [hidx, List.drop_append_of_le_length hlena, hbs, List.map_append]
      rfl

/-- C2.  Inserting `maxSize + 5` entries with pairwise distinct normalized
keys and strictly increasing timestamps leaves exactly `maxSize` entries,
namely the insertions after the first five — the five evicted entries are
exactly the five oldest. -/
theorem claim2 (inputs : List Ins) (hlen : inputs.length = maxSize + 5)
    (hk : (inputs.map (fun i => normalizeTask i.task)).Nodup)
    (ht : (inputs.map Ins.now).Pairwise (· < ·)) :
    cacheSetMany [] inputs = (inputs.drop 5).map entryOf ∧
    (cacheSetMany [] inputs).length = maxSize := by
  have h := cacheSetMany_drop inputs hk ht
  have h5 : inputs.length - maxSize = 5 := by omega
  rw [h5] at h
  refine ⟨h, ?_⟩
  rw [h, List.length_map, List.length_drop]
  omega

theorem dropWhile_jsWS_replicate_a (n : Nat) :
    (List.replicate n 'a').dropWhile jsWS = List.replicate n 'a' := by
  cases n with
  | zero => rfl
  | succ n =>
    rw [List.replicate_succ, List.dropWhile_cons]
    rw [if_neg (by decide)]

theorem collapseWSAux_replicate_a (n : Nat) :
    collapseWSAux false (List.replicate n 'a') = List.replicate n 'a' := by
  induction n with
  | zero => rfl
  | succ n ih =>
    rw [List.replicate_succ]
    unfold collapseWSAux
    rw [if_neg (by decide)]
    rw [ih]

theorem normalizeTask_replicate_a (n : Nat) :
    normalizeTask (String.mk (List.replicate n 'a')) = String.mk (List.replicate n 'a') := by
  unfold normalizeTask toLowerL jsTrim collapseWS
  have hdata : (String.mk (List.replicate n 'a')).data = List.replicate n 'a' := rfl
  rw [hdata, List.map_replicate]
  have hlow : Char.toLower 'a' = 'a' := by decide
  rw [hlow, dropWhile_jsWS_replicate_a, List.reverse_replicate,
    dropWhile_jsWS_replicate_a, List.reverse_replicate, collapseWSAux_replicate_a]

/-- Witness for C2: `maxSize + 5` tasks `""`, `"a"`, `"aa"`, … with
timestamps `0, 1, 2, …` satisfy the hypotheses, and the conclusion follows
by the theorem. -/
theorem claim2_witness :
    c2Inputs.length = maxSize + 5 ∧
    (c2Inputs.map (fun i => normalizeTask i.task)).Nodup ∧
    (c2Inputs.map Ins.now).Pairwise (· < ·) ∧
    (cacheSetMany [] c2Inputs = (c2Inputs.drop 5).map entryOf ∧
      (cacheSetMany [] c2Inputs).length = maxSize) := by
  have h1 : c2Inputs.length = maxSize + 5 := by
    simp [c2Inputs]
  have hmapkeys : c2Inputs.map (fun i => normalizeTask i.task) =
      (List.range (maxSize + 5)).map (fun i => String.mk (List.replicate i 'a')) := by
    unfold c2Inputs
    rw [List.map_map]
    exact List.map_congr_left (fun i _ => normalizeTask_replicate_a i)
  have h2 : (c2Inputs.map (fun i => normalizeTask i.task)).Nodup := by
    rw [hmapkeys]
    refine List.Nodup.map ?_ (List.nodup_range _)
    intro i j hij
    have hdata : List.replicate i 'a' = List.replicate j 'a' :=
      congrArg String.data hij
    have := congrArg List.length hdata
    simpa using this
  have hmapnow : c2Inputs.map Ins.now = List.range (maxSize + 5) := by
    unfold c2Inputs
    rw [List.map_map]
    have : (Ins.now ∘ fun i => Ins.mk (String.mk (List.replicate i 'a')) ("r") i 0) = id := by
      funext i
      rfl
    rw [this, List.map_id]
  have h3 : (c2Inputs.map Ins.now).Pairwise (· < ·) := by
    rw [hmapnow]
    exact List.pairwise_lt_range _
  exact ⟨h1, h2, h3, claim2 c2Inputs h1 h2 h3⟩

/-! ## C3: parser output shape -/

theorem parseLines_eq_filterMap (ls : List (List Char)) :
    parseLines ls = ((ls.filterMap lineParse).map (fun p => String.mk p.1),
      (ls.filterMap lineParse).map Prod.snd) := by
  induction ls with
  | nil => rfl
  | cons l rest ih =>
    cases h : lineParse l with
    | none => simp [parseLines, h, ih]
    | some p =>
      obtain ⟨s, n⟩ := p
      simp [parseLines, h, ih]

/-- C3.  The parser returns steps and minutes of equal length, index-aligned:
both lists are the two projections of the single list of `(step, minutes)`
pairs extracted line by line, so the minute at position `i` comes from the
same line as the step at position `i`. -/
theorem claim3 (text : String) :
    parseBreakdown text =
      (((nonBlankLines text).filterMap lineParse).map (fun p => String.mk p.1),
       ((nonBlankLines text).filterMap lineParse).map Prod.snd) ∧
    (parseBreakdown text).1.length = (parseBreakdown text).2.length := by
  have key := parseLines_eq_filterMap (nonBlankLines text)
  refine ⟨key, ?_⟩
  unfold parseBreakdown
  rw [key]
  simp

/-! ## C4: placeholder steps are discarded -/

/-- C4.  No extracted step text case-insensitively contains the placeholder
phrase "clear action": every pattern branch of the parser discards such a
match; in particular Scenario B yields empty output. -/
theorem claim4 :
    (∀ (l s : List Char) (n : Nat), lineParse l = some (s, n) → checkCA s = false) ∧
    parseBreakdown ("- [Clear action] (5 min)") = ([], []) := by
  constructor
  · intro l s n h
    unfold lineParse at h
    repeat' split at h
    all_goals simp_all
  · decide

/-- Witness for C4 at a concrete extraction. -/
theorem claim4_witness : checkCA (("Wash dishes").data) = false :=
  claim4.1 (("1. Wash dishes (5 min)").data) (("Wash dishes").data) 5 (by decide)

/-! ## C7: no-match lines are dropped; empty result is returned, not an error -/

/-- C7.  The parser is a total function (the embedding itself): a line on
which no pattern fires contributes nothing to the result, and an input all
of whose lines fail yields `([], [])`. -/
theorem claim7 :
    (∀ (l : List Char) (ls1 ls2 : List (List Char)), lineParse l = none →
      parseLines (ls1 ++ l :: ls2) = parseLines (ls1 ++ ls2)) ∧
    (∀ text : String, (∀ l ∈ nonBlankLines text, lineParse l = none) →
      parseBreakdown text = ([], [])) := by
  constructor
  · intro l ls1 ls2 h
    induction ls1 with
    | nil => simp [parseLines, h]
    | cons x ls1 ih =>
      simp only [List.cons_append]
      cases hx : lineParse x with
      | none => simp [parseLines, hx, ih]
      | some p =>
        obtain ⟨s, n⟩ := p
        simp [parseLines, hx, ih]
  · intro text hall
    unfold parseBreakdown
    have : ∀ ls : List (List Char), (∀ l ∈ ls, lineParse l = none) →
        parseLines ls = ([], []) := by
      intro ls h
      induction ls with
      | nil => rfl
      | cons l rest ih =>
        have h1 : lineParse l = none := h l (by simp)
        simp [parseLines, h1, ih (fun x hx => h x (List.mem_cons_of_mem _ hx))]
    exact this _ hall

/-- Witness for C7 at concrete inputs. -/
theorem claim7_witness :
    parseLines ([] ++ (("no pattern here").data) :: []) = parseLines ([] ++ []) ∧
    parseBreakdown ("hello world") = ([], []) :=
  ⟨claim7.1 (("no pattern here").data) [] [] (by decide),
   claim7.2 ("hello world") (by decide)⟩

/-! ## C5: the priority-1 pattern requires the literal label `step N:` -/

/-- Counterexample to C5 as stated: the line `"Prep: Chop onions (5 min)"`
has the claimed form `<label>: <action> (<N> min)` with label `Prep`, yet the
highest-priority (numbered) pattern does not match it, and the parser
extracts `"Prep: Chop onions"` (label kept, via the fallback pattern) rather
than `"Chop onions"`. -/
theorem claim5_counterexample :
    matchNumbered (("Prep: Chop onions (5 min)").data) = none ∧
    parseBreakdown ("Prep: Chop onions (5 min)") = (["Prep: Chop onions"], [5]) := by
  exact ⟨by decide, by decide⟩

/-! ## Helper lemmas for symbolic execution of the matchers -/

theorem matchCI_append (w l : List Char) : matchCI (toLowerL w) (w ++ l) = some l := by
  induction w with
  | nil => rfl
  | cons c w ih =>
    simp only [toLowerL, List.map_cons, List.cons_append]
    unfold matchCI
    show (if (c.toLower == c.toLower) = true then
        matchCI (List.map Char.toLower w) (w ++ l) else none) = some l
    rw [if_pos (by simp)]
    simpa [toLowerL] using ih

theorem takeWhile_all_append (p : Char → Bool) (l1 l2 : List Char)
    (h : ∀ c ∈ l1, p c = true) : (l1 ++ l2).takeWhile p = l1 ++ l2.takeWhile p := by
  induction l1 with
  | nil => simp
  | cons c l1 ih =>
    simp only [List.cons_append, List.takeWhile_cons]
    rw [if_pos (h c (by simp)), ih (fun x hx => h x (by simp [hx]))]

theorem dropWhile_all_append (p : Char → Bool) (l1 l2 : List Char)
    (h : ∀ c ∈ l1, p c = true) : (l1 ++ l2).dropWhile p = l2.dropWhile p := by
  induction l1 with
  | nil => simp
  | cons c l1 ih =>
    simp only [List.cons_append, List.dropWhile_cons]
    rw [if_pos (h c (by simp))]
    exact ih (fun x hx => h x (by simp [hx]))

theorem jsWS_eq_false_of_isDigit (c : Char) (h : c.isDigit = true) : jsWS c = false := by
  cases hw : jsWS c
  · rfl
  · exfalso
    unfold jsWS at hw
    simp only [Bool.or_eq_true, beq_iff_eq] at hw
    rcases hw with ((((((h1 | h1) | h1) | h1) | h1) | h1) | h1) <;> subst h1 <;>
      exact absurd h (by decide)

theorem jsTrim_cons_ws (c : Char) (hc : jsWS c = true) (l : List Char) :
    jsTrim (c :: l) = jsTrim l := by
  unfold jsTrim
  rw [List.dropWhile_cons, if_pos hc]

theorem jsTrim_append_ws (l : List Char) (c : Char) (hc : jsWS c = true) :
    jsTrim (l ++ [c]) = jsTrim l := by
  unfold jsTrim
  cases hd : l.dropWhile jsWS with
  | nil =>
    rw [List.dropWhile_append, hd]
    simp [hc]
  | cons x xs =>
    rw [List.dropWhile_append, hd]
    simp only [List.isEmpty_cons, Bool.false_eq_true, if_false]
    rw [List.reverse_append]
    simp only [List.reverse_cons, List.reverse_nil, List.nil_append, List.singleton_append]
    rw [List.dropWhile_cons, if_pos hc]

/-! ## C5 (amended): the priority-1 pattern for `step N:` labels -/

theorem matchParenMin_cons (c : Char) (r1 : List Char) :
    matchParenMin (c :: r1) =
      (if c == '(' then
        if (r1.takeWhile Char.isDigit).isEmpty then none
        else
          match matchCI ("min").data ((r1.dropWhile Char.isDigit).dropWhile jsWS) with
          | some (c2 :: r3) =>
            if c2 == ')' then some (digitsToNat (r1.takeWhile Char.isDigit), r3) else none
          | _ => none
      else none) := rfl

theorem matchPat1_eq (l r1 : List Char) (h : matchCI (("step").data) l = some r1) :
    matchPat1 l =
      (if ((r1.dropWhile jsWS).takeWhile Char.isDigit).isEmpty then none
       else
         match (r1.dropWhile jsWS).dropWhile Char.isDigit with
         | c :: r3 => if c == ':' then labeledTail r3 else none
         | [] => none) := by
  unfold matchPat1
  rw [h]

/-- C5 (amended).  For every line of the form
`<step-label><digits>: <action> (<digits> min)` where the label is the
literal word `step` in any letter case, the highest-priority pattern matches
and extracts the action and the minute count; the parser returns exactly
that extraction, so no lower-priority pattern contributes.  Side conditions:
the action contains no parenthesis, is already trimmed, and is not the
placeholder. -/
theorem claim5 (w ds ns a : List Char)
    (hw : toLowerL w = ("step").data)
    (hds : ds ≠ []) (hdsd : ∀ c ∈ ds, c.isDigit = true)
    (hns : ns ≠ []) (hnsd : ∀ c ∈ ns, c.isDigit = true)
    (haP : ∀ c ∈ a, isParen c = false)
    (haT : jsTrim a = a)
    (haCA : checkCA a = false) :
    matchPat1 (w ++ (ds ++ ([':', ' '] ++ (a ++ ([' ', '('] ++ (ns ++ (" min)").data)))))) =
      some (a, digitsToNat ns) ∧
    lineParse (w ++ (ds ++ ([':', ' '] ++ (a ++ ([' ', '('] ++ (ns ++ (" min)").data)))))) =
      some (a, digitsToNat ns) := by
  obtain ⟨d0, ds', rfl⟩ : ∃ d0 ds', ds = d0 :: ds' := by
    cases ds with
    | nil => exact absurd rfl hds
    | cons d0 ds' => exact ⟨d0, ds', rfl⟩
  obtain ⟨n0, ns', rfl⟩ : ∃ n0 ns', ns = n0 :: ns' := by
    cases ns with
    | nil => exact absurd rfl hns
    | cons n0 ns' => exact ⟨n0, ns', rfl⟩
  -- the paren-min group after the action
  have hpm : matchParenMin ('(' :: (n0 :: (ns' ++ (" min)").data))) =
      some (digitsToNat (n0 :: ns'), []) := by
    have hassoc : n0 :: (ns' ++ (" min)").data) = (n0 :: ns') ++ (" min)").data := rfl
    have htw : (n0 :: (ns' ++ (" min)").data)).takeWhile Char.isDigit = n0 :: ns' := by
      rw [hassoc, takeWhile_all_append _ _ _ hnsd]
      have h0 : ((" min)").data).takeWhile Char.isDigit = [] := by decide
      rw [h0, List.append_nil]
    have hdw : (n0 :: (ns' ++ (" min)").data)).dropWhile Char.isDigit = (" min)").data := by
      rw [hassoc, dropWhile_all_append _ _ _ hnsd]
      decide
    rw [matchParenMin_cons, if_pos (show (('(' : Char) == '(') = true by decide), htw, hdw]
    simp only [List.isEmpty_cons, Bool.false_eq_true, if_false]
    have hci : matchCI (("min").data) (((" min)").data).dropWhile jsWS) = some [')'] := by
      decide
    rw [hci]
    rfl
  -- the labeled tail after the colon
  have hsegall : ∀ c ∈ (' ' :: a) ++ [' '], (!(isParen c)) = true := by
    intro c hcm
    have hc : c = ' ' ∨ c ∈ a := by
      simp only [List.cons_append, List.mem_cons, List.mem_append, List.mem_singleton] at hcm
      tauto
    rcases hc with rfl | hcm'
    · decide
    · simp [haP c hcm']
  have hsplit : ' ' :: (a ++ (' ' :: ('(' :: (n0 :: (ns' ++ (" min)").data))))) =
      ((' ' :: a) ++ [' ']) ++ ('(' :: (n0 :: (ns' ++ (" min)").data))) := by
    simp [List.append_assoc]
  have hlt : labeledTail
      (' ' :: (a ++ (' ' :: ('(' :: (n0 :: (ns' ++ (" min)").data)))))) =
      some (a, digitsToNat (n0 :: ns')) := by
    unfold labeledTail
    rw [hsplit]
    rw [takeWhile_all_append _ _ _ hsegall, dropWhile_all_append _ _ _ hsegall]
    have ht0 : (('(' :: (n0 :: (ns' ++ (" min)").data))).takeWhile
        (fun c => !(isParen c))) = [] := by
      rw [List.takeWhile_cons, if_neg (by decide)]
    have hd0 : (('(' :: (n0 :: (ns' ++ (" min)").data))).dropWhile
        (fun c => !(isParen c))) = '(' :: (n0 :: (ns' ++ (" min)").data)) := by
      rw [List.dropWhile_cons, if_neg (by decide)]
    rw [ht0, hd0, List.append_nil]
    simp only [List.cons_append, List.isEmpty_cons, Bool.false_eq_true, if_false]
    rw [hpm]
    have htr : jsTrim (' ' :: (a ++ [' '])) = a := by
      rw [jsTrim_cons_ws ' ' (by decide), jsTrim_append_ws a ' ' (by decide), haT]
    rw [htr]
  -- the whole priority-1 pattern
  have hci0 : matchCI (("step").data)
      (w ++ (d0 :: (ds' ++ (':' :: (' ' :: (a ++ (' ' :: ('(' ::
        (n0 :: (ns' ++ (" min)").data)))))))))) =
      some (d0 :: (ds' ++ (':' :: (' ' :: (a ++ (' ' :: ('(' ::
        (n0 :: (ns' ++ (" min)").data))))))))) := by
    rw [← hw]
    exact matchCI_append w _
  have hasso1 : d0 :: (ds' ++ (':' :: (' ' :: (a ++ (' ' :: ('(' ::
      (n0 :: (ns' ++ (" min)").data)))))))) =
      (d0 :: ds') ++ (':' :: (' ' :: (a ++ (' ' :: ('(' ::
      (n0 :: (ns' ++ (" min)").data))))))) := rfl
  have hdw1 : ((d0 :: (ds' ++ (':' :: (' ' :: (a ++ (' ' :: ('(' ::
      (n0 :: (ns' ++ (" min)").data))))))))).dropWhile jsWS) =
      d0 :: (ds' ++ (':' :: (' ' :: (a ++ (' ' :: ('(' ::
      (n0 :: (ns' ++ (" min)").data)))))))) := by
    rw [List.dropWhile_cons,
      if_neg (by simp [jsWS_eq_false_of_isDigit d0 (hdsd d0 (by simp))])]
  have htw1 : ((d0 :: (ds' ++ (':' :: (' ' :: (a ++ (' ' :: ('(' ::
      (n0 :: (ns' ++ (" min)").data))))))))).takeWhile Char.isDigit) = d0 :: ds' := by
    rw [hasso1, takeWhile_all_append _ _ _ hdsd]
    rw [List.takeWhile_cons, if_neg (by decide), List.append_nil]
  have hdw2 : ((d0 :: (ds' ++ (':' :: (' ' :: (a ++ (' ' :: ('(' ::
      (n0 :: (ns' ++ (" min)").data))))))))).dropWhile Char.isDigit) =
      ':' :: (' ' :: (a ++ (' ' :: ('(' :: (n0 :: (ns' ++ (" min)").data)))))) := by
    rw [hasso1, dropWhile_all_append _ _ _ hdsd]
    rw [List.dropWhile_cons, if_neg (by decide)]
  have hp1 : matchPat1 (w ++ (d0 :: (ds' ++ (':' :: (' ' :: (a ++ (' ' :: ('(' ::
      (n0 :: (ns' ++ (" min)").data)))))))))) = some (a, digitsToNat (n0 :: ns')) := by
    rw [matchPat1_eq _ _ hci0, hdw1, htw1]
    simp only [List.isEmpty_cons, Bool.false_eq_true, if_false]
    rw [hdw2]
    show (if ((':' : Char) == ':') = true then
        labeledTail (' ' :: (a ++ (' ' :: ('(' :: (n0 :: (ns' ++ (" min)").data))))))
      else none) = some (a, digitsToNat (n0 :: ns'))
    rw [if_pos (show ((':' : Char) == ':') = true by decide)]
    exact hlt
  have hfin : lineParse (w ++ (d0 :: (ds' ++ (':' :: (' ' :: (a ++ (' ' :: ('(' ::
      (n0 :: (ns' ++ (" min)").data)))))))))) = some (a, digitsToNat (n0 :: ns')) := by
    unfold lineParse matchNumbered
    rw [hp1]
    simp [haCA]
  exact ⟨hp1, hfin⟩

/-- Witness for C5 at a concrete line `"Step 2: Chop onions (5 min)"`. -/
theorem claim5_witness :
    toLowerL (("Step").data) = ("step").data ∧
    jsTrim (("Chop onions").data) = ("Chop onions").data ∧
    checkCA (("Chop onions").data) = false ∧
    (matchPat1 ((("Step").data) ++ ((['2']) ++ ([':', ' '] ++ ((("Chop onions").data) ++
        ([' ', '('] ++ ((['5']) ++ (" min)").data)))))) =
      some (("Chop onions").data, digitsToNat ['5']) ∧
    lineParse ((("Step").data) ++ ((['2']) ++ ([':', ' '] ++ ((("Chop onions").data) ++
        ([' ', '('] ++ ((['5']) ++ (" min)").data)))))) =
      some (("Chop onions").data, digitsToNat ['5'])) :=
  ⟨by decide, by decide, by decide,
    claim5 (("Step").data) ['2'] ['5'] (("Chop onions").data) (by decide) (by decide)
      (by decide) (by decide) (by decide) (by decide) (by decide) (by decide)⟩

/-! ## C9: template total-time invariant -/

/-- C9.  After a successful `updateStep`, `addStep` or `removeStep`, the
mutated template's `estimatedTotalTime` equals the sum of the
`estimatedMinutes` of its steps — each operation recomputes the total. -/
theorem claim9 (m : List (String × CustomTemplate)) (tid sid : String)
    (u : StepUpdates) (desc : String) (mins : Nat) (opt : Option Bool) (now : Nat) :
    ((updateStep m tid sid u).1 = true →
      ∀ t, mapGet (updateStep m tid sid u).2 tid = some t →
        t.estimatedTotalTime = sumMinutes t.steps) ∧
    (∀ sid' m', addStep m tid desc mins opt now = some (sid', m') →
      ∀ t, mapGet m' tid = some t → t.estimatedTotalTime = sumMinutes t.steps) ∧
    ((removeStep m tid sid).1 = true →
      ∀ t, mapGet (removeStep m tid sid).2 tid = some t →
        t.estimatedTotalTime = sumMinutes t.steps) := by
  refine ⟨?_, ?_, ?_⟩
  · intro hsucc t ht
    cases hg : mapGet m tid with
    | none =>
      simp only [updateStep, hg] at hsucc
      exact Bool.noConfusion hsucc
    | some t0 =>
      cases hf : t0.steps.findIdx? (fun s => s.id == sid) with
      | none =>
        simp only [updateStep, hg, hf] at hsucc
        exact Bool.noConfusion hsucc
      | some i =>
        simp only [updateStep, hg, hf] at ht
        rw [mapGet_mapSet_self] at ht
        cases ht
        rfl
  · intro sid' m' hadd t ht
    cases hg : mapGet m tid with
    | none =>
      simp only [addStep, hg] at hadd
      exact Option.noConfusion hadd
    | some t0 =>
      simp only [addStep, hg, Option.some.injEq, Prod.mk.injEq] at hadd
      rw [← hadd.2] at ht
      rw [mapGet_mapSet_self] at ht
      cases ht
      rfl
  · intro hsucc t ht
    cases hg : mapGet m tid with
    | none =>
      simp only [removeStep, hg] at hsucc
      exact Bool.noConfusion hsucc
    | some t0 =>
      cases hf : t0.steps.findIdx? (fun s => s.id == sid) with
      | none =>
        simp only [removeStep, hg, hf] at hsucc
        exact Bool.noConfusion hsucc
      | some i =>
        simp only [removeStep, hg, hf] at ht
        rw [mapGet_mapSet_self] at ht
        cases ht
        rfl

/-- Witness for C9: update a one-step template's estimate to 7 minutes. -/
theorem claim9_witness :
    (updateStep [(("t1"), c9Tmpl)] ("t1") ("s1")
      { description := none, estimatedMinutes := some 7, optional := none }).1 = true ∧
    mapGet (updateStep [(("t1"), c9Tmpl)] ("t1") ("s1")
      { description := none, estimatedMinutes := some 7, optional := none }).2 ("t1") =
      some c9After ∧
    c9After.estimatedTotalTime = sumMinutes c9After.steps :=
  ⟨by decide, by decide,
    (claim9 [(("t1"), c9Tmpl)] ("t1") ("s1")
      { description := none, estimatedMinutes := some 7, optional := none }
      ("x") 0 none 0).1 (by decide) c9After (by decide)⟩

/-! ## C10: getAll sorted by lastUsed descending -/

/-- C10.  `FavoriteManager.getAll` returns, for every state of the map, a
permutation of the stored favorites sorted by `lastUsed` in descending
order. -/
theorem claim10 (m : List (String × FavoriteBreakdown)) :
    List.Pairwise favDesc (favGetAll m) ∧
    List.Perm (favGetAll m) (m.map Prod.snd) :=
  ⟨List.sorted_insertionSort favDesc (m.map Prod.snd),
   List.perm_insertionSort favDesc (m.map Prod.snd)⟩

/-! ## C6: quota-exceeded recovery -/

/-- Counterexample to C6 as stated: when the durable write throws
`QuotaExceededError` once, `ResponseCache.set` completes but its recovery
clears the whole in-memory cache, so the just-inserted entry is gone — the
in-memory insertion has not taken effect. -/
theorem claim6_counterexample :
    (rcSet { cache := [], storage := none, failN := 1 } 0 ("a") ("r") 0).cache = [] ∧
    mapGet (rcSet { cache := [], storage := none, failN := 1 } 0 ("a") ("r") 0).cache
      (normalizeTask ("a")) = none :=
  ⟨by decide, by decide⟩

/-- C6 (amended).  When a store write fails with the quota-exceeded
condition, the triggering operation still completes (the embedding is a
total function, mirroring the `try`/`catch` that swallows the error), but
the in-memory insertion need not survive: the Response Cache recovery clears
the entire in-memory map (and persists the empty snapshot), while the
Favorite Store recovery prunes the 5 least-recently-used favorites, so the
new favorite survives provided it is fresh, strictly newer than the existing
ones, and at least 5 favorites were already stored. -/
theorem claim6 :
    (∀ (st : RCState) (now : Nat) (task response : String) (it : Nat),
      st.failN = 1 →
      (rcSet st now task response it).cache = [] ∧
      (rcSet st now task response it).storage = some []) ∧
    (∀ (st : FMState) (now : Nat) (id task response : String) (et : Nat),
      st.failN = 1 →
      (keysOf st.favorites).Nodup →
      id ∉ keysOf st.favorites →
      (∀ p ∈ st.favorites, p.2.lastUsed < now) →
      5 ≤ st.favorites.length →
      mapGet ((favSave st now id task response et).2.favorites) id =
        some (mkFavorite id task response now et)) := by
  constructor
  · intro st now task response it hf
    obtain ⟨c, s, f⟩ := st
    simp only at hf
    subst hf
    exact ⟨rfl, rfl⟩
  · intro st now id task response et hf hnd hfresh hold hlen
    obtain ⟨favs, stor, f⟩ := st
    simp only at hf hnd hfresh hold hlen
    subst hf
    have hred : (favSave ⟨favs, stor, 1⟩ now id task response et).2.favorites =
        pruneOldest 5 (mapSet favs id (mkFavorite id task response now et)) := rfl
    rw [hred]
    have happ : mapSet favs id (mkFavorite id task response now et) =
        favs ++ [(id, mkFavorite id task response now et)] :=
      mapSet_eq_append favs id _ hfresh
    have hperm : List.Perm ((favs ++ [(id, mkFavorite id task response now et)]
        ).insertionSort favAsc) (favs ++ [(id, mkFavorite id task response now et)]) :=
      List.perm_insertionSort favAsc _
    have hsort : List.Pairwise favAsc ((favs ++ [(id, mkFavorite id task response now et)]
        ).insertionSort favAsc) :=
      List.sorted_insertionSort favAsc _
    have hlensorted : ((favs ++ [(id, mkFavorite id task response now et)]
        ).insertionSort favAsc).length = favs.length + 1 := by
      rw [List.length_insertionSort, List.length_append]
      simp
    -- the new pair is not among the five entries selected for removal
    have hnotin : (id, mkFavorite id task response now et) ∉
        ((favs ++ [(id, mkFavorite id task response now et)]).insertionSort favAsc).take 5 := by
      intro hmem
      obtain ⟨y, ys, hys⟩ : ∃ y ys,
          ((favs ++ [(id, mkFavorite id task response now et)]).insertionSort favAsc).drop 5 =
            y :: ys := by
        cases hd : ((favs ++ [(id, mkFavorite id task response now et)]
            ).insertionSort favAsc).drop 5 with
        | nil =>
          exfalso
          have hlist := List.length_drop 5
            ((favs ++ [(id, mkFavorite id task response now et)]).insertionSort favAsc)
          rw [hd, hlensorted] at hlist
          simp at hlist
          omega
        | cons y ys => exact ⟨y, ys, rfl⟩
      have hpw2 : List.Pairwise favAsc
          ((((favs ++ [(id, mkFavorite id task response now et)]).insertionSort favAsc).take 5) ++
           (((favs ++ [(id, mkFavorite id task response now et)]).insertionSort favAsc).drop 5)) := by
        rw [List.take_append_drop]
        exact hsort
      rw [List.pairwise_append] at hpw2
      have hymemdrop : y ∈ ((favs ++ [(id, mkFavorite id task response now et)]
          ).insertionSort favAsc).drop 5 := by
        rw [hys]
        exact List.mem_cons_self y ys
      have hxy := hpw2.2.2 _ hmem y hymemdrop
      have hymem : y ∈ favs ++ [(id, mkFavorite id task response now et)] :=
        (hperm.mem_iff).1 (List.mem_of_mem_drop hymemdrop)
      have hndfavs : (favs ++ [(id, mkFavorite id task response now et)]).Nodup := by
        have hkeysnd : ((favs ++ [(id, mkFavorite id task response now et)]).map
            Prod.fst).Nodup := by
          rw [List.map_append, List.nodup_append]
          refine ⟨hnd, by simp, ?_⟩
          intro x hx
          simp only [List.map_cons, List.map_nil, List.mem_singleton]
          intro he
          exact hfresh (he ▸ hx)
        exact hkeysnd.of_map
      have hsortnd : ((favs ++ [(id, mkFavorite id task response now et)]
          ).insertionSort favAsc).Nodup := (hperm.nodup_iff).2 hndfavs
      have hsplitnd : ((((favs ++ [(id, mkFavorite id task response now et)]
          ).insertionSort favAsc).take 5) ++
          (((favs ++ [(id, mkFavorite id task response now et)]
          ).insertionSort favAsc).drop 5)).Nodup := by
        rw [List.take_append_drop]
        exact hsortnd
      have hdisj := (List.nodup_append.1 hsplitnd).2.2
      have hyne : y ≠ (id, mkFavorite id task response now et) := by
        intro he
        exact hdisj (he ▸ hmem) hymemdrop
      have hyfavs : y ∈ favs := by
        rcases List.mem_append.1 hymem with h | h
        · exact h
        · simp only [List.mem_singleton] at h
          exact absurd h hyne
      have hyold := hold y hyfavs
      have hnow : (id, mkFavorite id task response now et).2.lastUsed = now := rfl
      unfold favAsc at hxy
      rw [hnow] at hxy
      omega
    have hkeys : ∀ k ∈ (((favs ++ [(id, mkFavorite id task response now et)]
        ).insertionSort favAsc).take 5).map Prod.fst, ¬(k == id) := by
      intro k hk hbeq
      obtain ⟨p, hp, hpk⟩ := List.mem_map.1 hk
      have hkid : k = id := eq_of_beq hbeq
      have hp1 : p.1 = id := hkid ▸ hpk
      have hpmem : p ∈ favs ++ [(id, mkFavorite id task response now et)] :=
        (hperm.mem_iff).1 (List.mem_of_mem_take hp)
      rcases List.mem_append.1 hpmem with h | h
      · exact hfresh (hp1 ▸ List.mem_map_of_mem Prod.fst h)
      · simp only [List.mem_singleton] at h
        subst h
        exact hnotin hp
    unfold pruneOldest
    rw [happ]
    rw [mapGet_foldl_mapDelete _ _ hkeys]
    rw [← happ, mapGet_mapSet_self]

/-- Witness for C6 (amended) at concrete states: a cache with one pending
quota failure, and a favorites store with five old favorites. -/
theorem claim6_witness :
    (({ cache := [], storage := none, failN := 1 } : RCState).failN = 1 ∧
      (rcSet { cache := [], storage := none, failN := 1 } 3 ("t") ("r") 0).cache = [] ∧
      (rcSet { cache := [], storage := none, failN := 1 } 3 ("t") ("r") 0).storage = some []) ∧
    (mapGet ((favSave { favorites := c6Favs, storage := none, failN := 1 } 10
        ("new") ("t") ("r") 0).2.favorites) ("new") =
      some (mkFavorite ("new") ("t") ("r") 10 0)) :=
  ⟨⟨rfl, claim6.1 { cache := [], storage := none, failN := 1 } 3 ("t") ("r") 0 rfl⟩,
   claim6.2 { favorites := c6Favs, storage := none, failN := 1 } 10 ("new") ("t") ("r") 0
     rfl (by decide) (by decide) (by decide) (by decide)⟩

end FocusMate
